import Mathlib

/-!
Verification development for the multi-tier module cache (Orchestrator),
the `Coins` collection of `packages/std/src/coins.rs`, and the staking
contract's storage helpers of `contracts/staking/src/state.rs`.

The Orchestrator itself (Cache, tiers, statistics) is exercised by
`packages/vm/examples/test_multithreaded.rs` but its implementation is not
part of the sources at hand, so the cache component is modelled from the
specification text; the embeddings of `coins.rs` and `state.rs` follow the
Rust sources directly.
-/

namespace CacheCore

/-- Raw module bytecode, a byte sequence. -/
abbrev Bytes := List Nat

/-- Modelled from the spec: `checksum(bytes)` is a pure, deterministic
content digest; identical bytes always yield the identical checksum and the
digest is treated as collision-free (cryptographic ideal), so it is modelled
as the identity embedding of the byte sequence. -/
def checksum (b : Bytes) : Bytes := b

/-- Modelled from the spec: a Compiled Module is the compiler's output for
some raw bytes and carries an estimated in-memory footprint used for the
memory-tier budget accounting. -/
structure Module where
  source : Bytes
  size : Nat
deriving DecidableEq, Repr

/-- Modelled from the spec: the construction-time configuration of one
Orchestrator: the validation outcome per byte sequence (capability checking
abstracted to its verdict), the estimated footprint of each module, and the
memory-tier byte budget of `CacheOptions`. -/
structure CacheConfig where
  validateOk : Bytes → Bool
  footprint : Bytes → Nat
  memBudget : Nat

/-- Modelled from the spec: compiling raw bytes yields an immutable module
whose estimated footprint is determined by the bytes. -/
def compile (cfg : CacheConfig) (b : Bytes) : Module :=
  ⟨b, cfg.footprint b⟩

/-- The four monotonically increasing statistics counters owned by one
Orchestrator. -/
structure Stats where
  hitsPinned : Nat
  hitsMemory : Nat
  hitsFs : Nat
  misses : Nat
deriving DecidableEq, Repr

/-- Sum of the four counters, the quantity the accounting contract tracks. -/
def statsSum (st : Stats) : Nat :=
  st.hitsPinned + st.hitsMemory + st.hitsFs + st.misses

/-- Modelled from the spec: the Orchestrator state. `durable` is the
content-addressed Durable Store (checksum to raw bytes), `memory` the
Bounded Memory Tier kept most-recently-used first, `pinned` the Pinned
Tier, and `stats` the counter set. -/
structure CacheState where
  durable : List (Bytes × Bytes)
  memory : List (Bytes × Module)
  pinned : List (Bytes × Module)
  stats : Stats
deriving DecidableEq, Repr

/-- A freshly constructed Orchestrator: empty tiers, zero counters. -/
def initState : CacheState :=
  ⟨[], [], [], ⟨0, 0, 0, 0⟩⟩

/-- First-match association lookup used by every tier. -/
def findVal {α : Type} (c : Bytes) : List (Bytes × α) → Option α
  | [] => none
  | e :: rest => if e.1 = c then some e.2 else findVal c rest

/-- Remove every entry keyed by `c` (each tier holds at most one). -/
def removeKey {α : Type} (c : Bytes) (l : List (Bytes × α)) :
    List (Bytes × α) :=
  l.filter (fun e => e.1 ≠ c)

/-- Total estimated footprint of the Memory Tier. -/
def memTotal (l : List (Bytes × Module)) : Nat :=
  (l.map (fun e => e.2.size)).sum

/-- Eviction loop on the least-recently-used-first view of the tier: while
the total footprint exceeds the byte budget, drop the least-recently-used
entry (the head) one at a time. -/
def evictLru (budget : Nat) : List (Bytes × Module) → List (Bytes × Module)
  | [] => []
  | e :: rest =>
    if memTotal (e :: rest) ≤ budget then e :: rest
    else evictLru budget rest

/-- Modelled from the spec: while the tier's total footprint exceeds the
byte budget, evict the least-recently-used entries (the tail of the
most-recently-used-first list) one at a time until back under budget. -/
def evict (budget : Nat) (l : List (Bytes × Module)) :
    List (Bytes × Module) :=
  (evictLru budget l.reverse).reverse

/-- Modelled from the spec: `insert` adds or refreshes the entry (marking it
most recently used) and then runs the eviction loop. -/
def memInsert (cfg : CacheConfig) (c : Bytes) (m : Module)
    (l : List (Bytes × Module)) : List (Bytes × Module) :=
  evict cfg.memBudget ((c, m) :: removeKey c l)

/-- The error taxonomy visible to the claims: validation rejection and
checksum-not-found. -/
inductive VmError where
  | validationErr
  | notFound
deriving DecidableEq, Repr

/-- Modelled from the spec: `save_wasm` validates, computes the checksum and
writes to the Durable Store if and only if no artifact exists yet
(idempotent no-op success on re-save); the Pinned and Memory tiers and the
counters are untouched. -/
def saveWasm (cfg : CacheConfig) (b : Bytes) (s : CacheState) :
    Except VmError Bytes × CacheState :=
  if cfg.validateOk b then
    let c := checksum b
    match findVal c s.durable with
    | some _ => (.ok c, s)
    | none => (.ok c, { s with durable := (c, b) :: s.durable })
  else (.error .validationErr, s)

/-- Modelled from the spec: the `get_instance` resolution algorithm.
Pinned hit, else memory hit (refreshing recency), else durable-store load
plus compile plus memory insert, else miss with NotFoundError; exactly one
counter is incremented. The Instance Factory glue is out of scope, so the
resolved module stands for the instance. -/
def getInstance (cfg : CacheConfig) (c : Bytes) (s : CacheState) :
    Except VmError Module × CacheState :=
  match findVal c s.pinned with
  | some m =>
    (.ok m, { s with stats := { s.stats with hitsPinned := s.stats.hitsPinned + 1 } })
  | none =>
    match findVal c s.memory with
    | some m =>
      (.ok m, { s with
        memory := (c, m) :: removeKey c s.memory,
        stats := { s.stats with hitsMemory := s.stats.hitsMemory + 1 } })
    | none =>
      match findVal c s.durable with
      | none =>
        (.error .notFound, { s with stats := { s.stats with misses := s.stats.misses + 1 } })
      | some b =>
        let m := compile cfg b
        (.ok m, { s with
          memory := memInsert cfg c m s.memory,
          stats := { s.stats with hitsFs := s.stats.hitsFs + 1 } })

/-- Modelled from the spec: `pin` always loads the raw bytes from the
Durable Store (counting a durable-store hit), recompiles, and inserts into
the Pinned Tier; a checksum unknown to the Durable Store is a NotFoundError
and changes nothing. -/
def pin (cfg : CacheConfig) (c : Bytes) (s : CacheState) :
    Except VmError Unit × CacheState :=
  match findVal c s.durable with
  | none => (.error .notFound, s)
  | some b =>
    let m := compile cfg b
    (.ok (), { s with
      pinned := (c, m) :: removeKey c s.pinned,
      stats := { s.stats with hitsFs := s.stats.hitsFs + 1 } })

/-- Modelled from the spec: `unpin` removes from the Pinned Tier only. -/
def unpin (c : Bytes) (s : CacheState) : Except VmError Unit × CacheState :=
  (.ok (), { s with pinned := removeKey c s.pinned })

/-- One public Orchestrator operation of a call sequence. -/
inductive Op where
  | save (b : Bytes)
  | get (c : Bytes)
  | pinOp (c : Bytes)
  | unpinOp (c : Bytes)
deriving DecidableEq, Repr

/-- One step of a call sequence, also counting issued `get_instance` calls
and successful `pin` calls (the accumulator is state, gets, ok-pins). -/
def stepCount (cfg : CacheConfig) (acc : CacheState × Nat × Nat) (op : Op) :
    CacheState × Nat × Nat :=
  match op with
  | .save b => ((saveWasm cfg b acc.1).2, acc.2.1, acc.2.2)
  | .get c => ((getInstance cfg c acc.1).2, acc.2.1 + 1, acc.2.2)
  | .pinOp c =>
    ((pin cfg c acc.1).2, acc.2.1,
      acc.2.2 + if (findVal c acc.1.durable).isSome then 1 else 0)
  | .unpinOp c => ((unpin c acc.1).2, acc.2.1, acc.2.2)

/-- Run a call sequence against a fresh Orchestrator, with the counts. -/
def runCount (cfg : CacheConfig) (ops : List Op) : CacheState × Nat × Nat :=
  ops.foldl (stepCount cfg) (initState, 0, 0)

/-- The Orchestrator state after a call sequence on a fresh Orchestrator. -/
def runState (cfg : CacheConfig) (ops : List Op) : CacheState :=
  (runCount cfg ops).1

/-- Whether some byte sequence in `ops` was passed to a successful
`save_wasm` (validation passed) with checksum `c`. -/
def savedSuccessfully (cfg : CacheConfig) (ops : List Op) (c : Bytes) : Bool :=
  ops.any (fun op =>
    match op with
    | .save b => cfg.validateOk b && checksum b = c
    | _ => false)

/-- Number of entries stored under key `c` (artifact count of the Durable
Store for one checksum). -/
def countKey {α : Type} (c : Bytes) (l : List (Bytes × α)) : Nat :=
  (l.filter fun e => e.1 = c).length

/-- A configuration accepting everything, unit footprints, budget 10. -/
def cfgUnit : CacheConfig := ⟨fun _ => true, fun _ => 1, 10⟩

/-- A configuration accepting everything with a zero memory-tier budget. -/
def cfgZero : CacheConfig := ⟨fun _ => true, fun _ => 1, 0⟩

/-- Mebibytes. -/
def mebi (n : Nat) : Nat := n * 1048576

/-- The eviction-scenario configuration: module `[0]` has footprint
150 MiB, every other module 100 MiB, and the budget is 200 MiB. -/
def cfgEvict : CacheConfig :=
  ⟨fun _ => true, fun b => if b = [0] then mebi 150 else mebi 100, mebi 100 + mebi 100⟩

/-- A state whose Durable Store and Memory Tier hold module `[0]`. -/
def sampleMemState : CacheState :=
  ⟨[([0], [0])], [([0], ⟨[0], 1⟩)], [], ⟨0, 0, 0, 0⟩⟩

/-- A state whose Durable Store and Pinned Tier hold module `[0]`. -/
def samplePinState : CacheState :=
  ⟨[([0], [0])], [], [([0], ⟨[0], 1⟩)], ⟨0, 0, 0, 0⟩⟩

end CacheCore

namespace CoinsModel

/-- Denoms are strings, embedded as character lists. -/
abbrev Denom := List Char

/-- One more than the largest `Uint128` value. -/
def TWO128 : Nat := 2 ^ 128

/-- `Coin`: a denom together with a `Uint128` amount. -/
structure Coin where
  denom : Denom
  amount : Nat
deriving DecidableEq, Repr

/-- The `BTreeMap<String, Uint128>` underlying `Coins`, embedded as an
association list kept strictly sorted by denom. -/
abbrev CoinsMap := List (Denom × Nat)

/-- Strict lexicographic (byte-wise) order on denoms, the `Ord` used by
`BTreeMap<String, _>`. -/
def lexLt : List Char → List Char → Bool
  | [], [] => false
  | [], _ :: _ => true
  | _ :: _, [] => false
  | a :: as, b :: bs =>
    if a.toNat < b.toNat then true
    else if b.toNat < a.toNat then false
    else lexLt as bs

/-- `BTreeMap::get`. -/
def mapGet (d : Denom) : CoinsMap → Option Nat
  | [] => none
  | e :: rest => if e.1 = d then some e.2 else mapGet d rest

/-- `BTreeMap::insert`: stores the binding keeping the list sorted and
returns the previous value for the key, if any. -/
def mapInsert (d : Denom) (v : Nat) : CoinsMap → CoinsMap × Option Nat
  | [] => ([(d, v)], none)
  | e :: rest =>
    if lexLt d e.1 then ((d, v) :: e :: rest, none)
    else if d = e.1 then ((d, v) :: rest, some e.2)
    else
      let r := mapInsert d v rest
      (e :: r.1, r.2)

/-- `CoinsError` of `errors::CoinsError`. -/
inductive CoinsError where
  | duplicateDenom
deriving DecidableEq, Repr

/-- The `StdError` cases the embedded operations produce. -/
inductive StdErr where
  | overflowErr
  | parseCoinErr
  | coinsErr (e : CoinsError)
deriving DecidableEq, Repr

/-- `TryFrom<Vec<Coin>> for Coins`: zero amounts are skipped; a denom whose
insertion returns a previous value is a `DuplicateDenom` error. -/
def tryFromAux (m : CoinsMap) : List Coin → Except CoinsError CoinsMap
  | [] => .ok m
  | c :: rest =>
    if c.amount = 0 then tryFromAux m rest
    else
      let r := mapInsert c.denom c.amount m
      match r.2 with
      | some _ => .error .duplicateDenom
      | none => tryFromAux r.1 rest

/-- `TryFrom<Vec<Coin>> for Coins`, starting from the empty map. -/
def tryFromVec (l : List Coin) : Except CoinsError CoinsMap :=
  tryFromAux [] l

/-- `Coins::add`: a zero amount returns `Ok` leaving the collection
unchanged; otherwise the entry is materialized (`entry(..).or_insert(0)`)
and `checked_add` either stores the sum or errors, the map keeping the
materialized entry. -/
def addCoin (m : CoinsMap) (c : Coin) : Except StdErr Unit × CoinsMap :=
  if c.amount = 0 then (.ok (), m)
  else
    let cur := (mapGet c.denom m).getD 0
    let m1 := (mapInsert c.denom cur m).1
    if cur + c.amount < TWO128 then
      (.ok (), (mapInsert c.denom (cur + c.amount) m1).1)
    else (.error .overflowErr, m1)

/-- `Coins::extend`: `add` every coin, short-circuiting on the first error. -/
def extendCoins (m : CoinsMap) : List Coin → Except StdErr Unit × CoinsMap
  | [] => (.ok (), m)
  | c :: rest =>
    let r := addCoin m c
    match r.1 with
    | .error e => (.error e, r.2)
    | .ok _ => extendCoins r.2 rest

/-- `From<Coin> for Coins`: `add` into the empty collection. -/
def fromCoin (c : Coin) : CoinsMap := (addCoin [] c).2

/-- `Coins::amount_of`: the stored amount or zero. -/
def amountOf (d : Denom) (m : CoinsMap) : Nat := (mapGet d m).getD 0

/-- Ascii decimal digit test. -/
def isDigitChar (c : Char) : Bool := 48 ≤ c.toNat && c.toNat ≤ 57

/-- Decimal rendering of a `Uint128` amount (most significant digit first). -/
def natToChars (n : Nat) : List Char :=
  if n = 0 then [Char.ofNat 48]
  else (Nat.digits 10 n).reverse.map (fun d => Char.ofNat (48 + d))

/-- Decimal parsing of a digit run. -/
def charsToNat (l : List Char) : Nat :=
  l.foldl (fun a c => a * 10 + (c.toNat - 48)) 0

/-- One displayed entry: `"{amount}{denom}"`. -/
def coinToChars (e : Denom × Nat) : List Char := natToChars e.2 ++ e.1

/-- `Vec::join(",")`. -/
def intercalateComma : List (List Char) → List Char
  | [] => []
  | [x] => x
  | x :: y :: rest => x ++ ',' :: intercalateComma (y :: rest)

/-- `Display for Coins`: the stored (sorted) entries rendered and joined by
commas; the empty collection renders as the empty string. -/
def coinsToChars (m : CoinsMap) : List Char :=
  intercalateComma (m.map coinToChars)

/-- Modelled from the spec: `Coin::from_str` (its source is not among the
files at hand; behavior fixed by the `converting_str` test): the amount is
the maximal leading run of ascii digits, the denom the remainder; a missing
amount, a missing denom, or an amount exceeding `Uint128` is an error. -/
def coinFromChars (s : List Char) : Except StdErr Coin :=
  let ds := s.takeWhile isDigitChar
  let rest := s.dropWhile isDigitChar
  if ds = [] then .error .parseCoinErr
  else if rest = [] then .error .parseCoinErr
  else if charsToNat ds < TWO128 then .ok ⟨rest, charsToNat ds⟩
  else .error .parseCoinErr

/-- `str::split(',')`: the comma-separated pieces; the empty string yields
one empty piece. -/
def splitComma : List Char → List (List Char)
  | [] => [[]]
  | c :: rest =>
    let r := splitComma rest
    if c = ',' then [] :: r
    else
      match r with
      | h :: t => (c :: h) :: t
      | [] => [[c]]

/-- `collect::<Result<Vec<_>, _>>` over `Coin::from_str`. -/
def parseCoinList : List (List Char) → Except StdErr (List Coin)
  | [] => .ok []
  | s :: rest =>
    match coinFromChars s with
    | .error e => .error e
    | .ok c =>
      match parseCoinList rest with
      | .error e => .error e
      | .ok cs => .ok (c :: cs)

/-- `FromStr for Coins`: the empty string is the empty collection, else
split on commas, parse each coin, and convert via `TryFrom<Vec<Coin>>`. -/
def coinsFromChars (s : List Char) : Except StdErr CoinsMap :=
  if s = [] then .ok []
  else
    match parseCoinList (splitComma s) with
    | .error e => .error e
    | .ok coins =>
      match tryFromVec coins with
      | .error e => .error (.coinsErr e)
      | .ok m => .ok m

/-- Well-formedness of the map representation: strictly sorted by denom,
which `BTreeMap` maintains by construction. -/
def sortedMap (m : CoinsMap) : Prop :=
  List.Pairwise (fun a b => lexLt a.1 b.1 = true) m

/-- Every stored amount is strictly positive and fits `Uint128`. -/
def goodAmounts (m : CoinsMap) : Prop :=
  ∀ e ∈ m, 0 < e.2 ∧ e.2 < TWO128

/-- The denom side conditions of the round-trip claim: non-empty, free of
commas, and not beginning with a decimal digit. -/
def roundtripDenom (d : Denom) : Prop :=
  d ≠ [] ∧ (∀ ch ∈ d, ch ≠ ',') ∧ ∀ ch ∈ d.take 1, isDigitChar ch = false

/-- The maps reachable through the public constructors and mutators
(`Coins::default`, `TryFrom<Vec<Coin>>`, `From<Coin>`, `from_str`, `add`,
`extend`); coin arguments carry `Uint128` amounts, hence the bound. -/
inductive Reach : CoinsMap → Prop
  | empty : Reach []
  | ofTryFrom (l : List Coin) (m : CoinsMap) :
      (∀ c ∈ l, c.amount < TWO128) → tryFromVec l = .ok m → Reach m
  | ofFromCoin (c : Coin) : c.amount < TWO128 → Reach (fromCoin c)
  | ofFromStr (s : List Char) (m : CoinsMap) :
      coinsFromChars s = .ok m → Reach m
  | ofAdd (m : CoinsMap) (c : Coin) :
      Reach m → c.amount < TWO128 → Reach (addCoin m c).2
  | ofExtend (m : CoinsMap) (l : List Coin) :
      Reach m → (∀ c ∈ l, c.amount < TWO128) → Reach (extendCoins m l).2

end CoinsModel

namespace StakingState

/-- Raw storage bytes. -/
abbrev ByteStr := List Nat

/-- Modelled from the spec: `encode_length` of `storage_keys` (source not
among the files at hand): the two-byte big-endian length prefix; namespaces
longer than `0xFFFF` are rejected by the Rust implementation. -/
def encodeLength (n : Nat) : ByteStr := [n / 256 % 256, n % 256]

/-- Modelled from the spec: `namespace_with_key(&[ns], key)` (source not
among the files at hand): each namespace component length-prefixed, then the
key, so for one component it is `encode_length(ns) ++ ns ++ key`. -/
def namespaceWithKey (ns key : ByteStr) : ByteStr :=
  encodeLength ns.length ++ ns ++ key

/-- Modelled from the spec: the `Storage` trait object, embedded as an
association list from raw keys to raw values. -/
abbrev Store := List (ByteStr × ByteStr)

/-- `Storage::get`. -/
def storeGet (k : ByteStr) : Store → Option ByteStr
  | [] => none
  | e :: rest => if e.1 = k then some e.2 else storeGet k rest

/-- `Storage::set`: overwrite any existing binding of the key. -/
def storeSet (st : Store) (k v : ByteStr) : Store :=
  (k, v) :: st.filter (fun e => e.1 ≠ k)

/-- Modelled from the spec: `to_vec` of a `Uint128` (serde source not among
the files at hand): the JSON string of its decimal digits, i.e. a quote
byte, the digits, a quote byte; it never fails. -/
def toVecU128 (v : Nat) : ByteStr :=
  34 :: (if v = 0 then [48] else (Nat.digits 10 v).reverse.map (fun d => 48 + d)) ++ [34]

/-- Ascii decimal digit test on a byte. -/
def isDigitByte (b : Nat) : Bool := 48 ≤ b && b ≤ 57

/-- Decimal value of a digit-byte run. -/
def bytesToNat (l : ByteStr) : Nat :=
  l.foldl (fun a b => a * 10 + (b - 48)) 0

/-- `StdError` as far as the storage helpers need it. -/
inductive StdError where
  | notFound
  | parseErr
deriving DecidableEq, Repr

/-- Modelled from the spec: `from_slice` into `Uint128` (serde source not
among the files at hand): accepts exactly a quoted non-empty digit run whose
value fits `Uint128`. -/
def fromSliceU128 (b : ByteStr) : Except StdError Nat :=
  match b with
  | [] => .error .parseErr
  | b0 :: rest =>
    if b0 = 34 then
      if rest.getLast? = some 34 then
        let mid := rest.dropLast
        if mid ≠ [] ∧ mid.all isDigitByte = true ∧
            bytesToNat mid < CoinsModel.TWO128 then
          .ok (bytesToNat mid)
        else .error .parseErr
      else .error .parseErr
    else .error .parseErr

/-- `may_load_map`: read the namespaced key and deserialize if present. -/
def mayLoadMap (st : Store) (ns key : ByteStr) : Except StdError (Option Nat) :=
  match storeGet (namespaceWithKey ns key) st with
  | none => .ok none
  | some v =>
    match fromSliceU128 v with
    | .ok n => .ok (some n)
    | .error e => .error e

/-- `save_map`: write the serialized value under the namespaced key
(serialization of `Uint128` cannot fail, so the operation is total). -/
def saveMap (st : Store) (ns key : ByteStr) (v : Nat) : Store :=
  storeSet st (namespaceWithKey ns key) (toVecU128 v)

/-- `load_map`: `may_load_map` with a not-found error for `None`. -/
def loadMap (st : Store) (ns key : ByteStr) : Except StdError Nat :=
  match mayLoadMap st ns key with
  | .error e => .error e
  | .ok none => .error .notFound
  | .ok (some n) => .ok n

/-- A storage populated from empty by a sequence of `save_map` calls. -/
def runSaves (saves : List (ByteStr × ByteStr × Nat)) : Store :=
  saves.foldl (fun st e => saveMap st e.1 e.2.1 e.2.2) []

end StakingState

/-! ## Lemmas and theorems: the cache Orchestrator -/

namespace CacheCore

theorem findVal_removeKey_self {α : Type} (c : Bytes) (l : List (Bytes × α)) :
    findVal c (removeKey c l) = none := by
  induction l with
  | nil => rfl
  | cons e rest ih =>
    by_cases h : e.1 = c
    · simpa [removeKey, List.filter_cons, h] using ih
    · simpa [removeKey, List.filter_cons, h, findVal] using ih

theorem findVal_removeKey_ne {α : Type} {c c2 : Bytes} (h : c2 ≠ c)
    (l : List (Bytes × α)) : findVal c2 (removeKey c l) = findVal c2 l := by
  induction l with
  | nil => rfl
  | cons e rest ih =>
    simp only [removeKey, ne_eq, decide_not] at ih ⊢
    by_cases he : e.1 = c
    · have hne : ¬ (c = c2) := fun hx => h hx.symm
      simp [List.filter_cons, he, findVal, hne, ih]
    · by_cases he2 : e.1 = c2
      · simp [List.filter_cons, he, findVal, he2, h]
      · simp [List.filter_cons, he, findVal, he2, ih]

theorem countKey_eq_zero_iff {α : Type} (c : Bytes) (l : List (Bytes × α)) :
    countKey c l = 0 ↔ findVal c l = none := by
  induction l with
  | nil => simp [countKey, findVal]
  | cons e rest ih =>
    by_cases h : e.1 = c
    · simp [countKey, List.filter_cons, h, findVal]
    · simpa [countKey, List.filter_cons, h, findVal] using ih

/-- C5: `save_wasm` is idempotent: for bytes that validate, both calls
return the same checksum, the second call is a no-op success leaving the
state exactly as after the first, and starting from a store without an
artifact for that checksum the Durable Store afterwards holds exactly one
artifact for it. -/
theorem saveWasm_idempotent (cfg : CacheConfig) (b : Bytes) (s : CacheState)
    (hv : cfg.validateOk b = true) :
    (saveWasm cfg b s).1 = .ok (checksum b) ∧
    (saveWasm cfg b (saveWasm cfg b s).2).1 = .ok (checksum b) ∧
    (saveWasm cfg b (saveWasm cfg b s).2).2 = (saveWasm cfg b s).2 ∧
    (countKey (checksum b) s.durable = 0 →
      countKey (checksum b) (saveWasm cfg b (saveWasm cfg b s).2).2.durable = 1) := by
  cases hd : findVal (checksum b) s.durable with
  | some v =>
    refine ⟨by simp [saveWasm, hv, hd], by simp [saveWasm, hv, hd],
      by simp [saveWasm, hv, hd], fun h0 => absurd hd ?_⟩
    rw [(countKey_eq_zero_iff (checksum b) s.durable).mp h0]
    simp
  | none =>
    refine ⟨by simp [saveWasm, hv, hd], ?_, ?_, fun h0 => ?_⟩
    · simp [saveWasm, hv, hd, findVal]
    · simp [saveWasm, hv, hd, findVal]
    · have h1 : (saveWasm cfg b (saveWasm cfg b s).2).2.durable =
          (checksum b, b) :: s.durable := by
        simp [saveWasm, hv, hd, findVal]
      simp only [countKey] at h0 ⊢
      rw [h1]
      simp [List.filter_cons, h0]

theorem saveWasm_idempotent_witness :
    cfgUnit.validateOk [0] = true ∧
    ((saveWasm cfgUnit [0] initState).1 = .ok (checksum [0]) ∧
     (saveWasm cfgUnit [0] (saveWasm cfgUnit [0] initState).2).1 = .ok (checksum [0]) ∧
     (saveWasm cfgUnit [0] (saveWasm cfgUnit [0] initState).2).2 = (saveWasm cfgUnit [0] initState).2 ∧
     (countKey (checksum [0]) initState.durable = 0 →
       countKey (checksum [0]) (saveWasm cfgUnit [0] (saveWasm cfgUnit [0] initState).2).2.durable = 1)) :=
  ⟨rfl, saveWasm_idempotent cfgUnit [0] initState rfl⟩

/-- C2 (amended): on a fresh Orchestrator whose memory budget accommodates
the module's footprint, after a successful `save_wasm` the first
`get_instance` takes the counters from all-zero to one durable-store hit,
and the second `get_instance` to additionally one memory hit, the other
counters staying zero. -/
theorem fresh_save_get_hits (cfg : CacheConfig) (b : Bytes)
    (hv : cfg.validateOk b = true) (hfit : cfg.footprint b ≤ cfg.memBudget) :
    (getInstance cfg (checksum b) (saveWasm cfg b initState).2).2.stats =
      ⟨0, 0, 1, 0⟩ ∧
    (getInstance cfg (checksum b)
        (getInstance cfg (checksum b) (saveWasm cfg b initState).2).2).2.stats =
      ⟨0, 1, 1, 0⟩ := by
  have h1 : (saveWasm cfg b initState).2 =
      ⟨[(checksum b, b)], [], [], ⟨0, 0, 0, 0⟩⟩ := by
    simp [saveWasm, hv, initState, findVal]
  rw [h1]
  have h2 : getInstance cfg (checksum b) ⟨[(checksum b, b)], [], [], ⟨0, 0, 0, 0⟩⟩ =
      (.ok (compile cfg b),
        ⟨[(checksum b, b)], [(checksum b, compile cfg b)], [], ⟨0, 0, 1, 0⟩⟩) := by
    simp [getInstance, findVal, memInsert, removeKey, evict, evictLru, memTotal, compile, hfit]
  rw [h2]
  refine ⟨rfl, ?_⟩
  simp [getInstance, findVal]

theorem fresh_save_get_hits_witness :
    cfgUnit.validateOk [0] = true ∧ cfgUnit.footprint [0] ≤ cfgUnit.memBudget ∧
    ((getInstance cfgUnit (checksum [0]) (saveWasm cfgUnit [0] initState).2).2.stats =
      ⟨0, 0, 1, 0⟩ ∧
     (getInstance cfgUnit (checksum [0])
        (getInstance cfgUnit (checksum [0]) (saveWasm cfgUnit [0] initState).2).2).2.stats =
      ⟨0, 1, 1, 0⟩) :=
  ⟨rfl, by decide, fresh_save_get_hits cfgUnit [0] rfl (by decide)⟩

/-- C2 (counterexample): with a zero memory-tier budget (a legal
construction) the freshly inserted module is itself evicted, so on a fresh
Orchestrator after `save_wasm` the second `get_instance` is another
durable-store hit, not the memory hit the claim promises. -/
theorem fresh_save_get_budget_counterexample :
    (getInstance cfgZero [0] (saveWasm cfgZero [0] initState).2).2.stats =
      ⟨0, 0, 1, 0⟩ ∧
    (getInstance cfgZero [0]
        (getInstance cfgZero [0] (saveWasm cfgZero [0] initState).2).2).2.stats =
      ⟨0, 0, 2, 0⟩ ∧
    ¬ ((getInstance cfgZero [0]
        (getInstance cfgZero [0] (saveWasm cfgZero [0] initState).2).2).2.stats.hitsMemory = 1) := by
  decide

/-- C3: for a checksum present in the Durable Store — even with a compiled
copy already resident in the Memory Tier — `pin` increments exactly the
durable-store-hit counter, and a `get_instance` issued after the pin
increments exactly the pinned-hit counter, leaving memory hits and
durable-store hits unchanged. -/
theorem pin_then_get_pinned_hit (cfg : CacheConfig) (c b : Bytes)
    (s : CacheState) (hd : findVal c s.durable = some b) :
    ((pin cfg c s).2.stats.hitsPinned = s.stats.hitsPinned ∧
     (pin cfg c s).2.stats.hitsMemory = s.stats.hitsMemory ∧
     (pin cfg c s).2.stats.hitsFs = s.stats.hitsFs + 1 ∧
     (pin cfg c s).2.stats.misses = s.stats.misses) ∧
    ((getInstance cfg c (pin cfg c s).2).2.stats.hitsPinned =
        (pin cfg c s).2.stats.hitsPinned + 1 ∧
     (getInstance cfg c (pin cfg c s).2).2.stats.hitsMemory =
        (pin cfg c s).2.stats.hitsMemory ∧
     (getInstance cfg c (pin cfg c s).2).2.stats.hitsFs =
        (pin cfg c s).2.stats.hitsFs ∧
     (getInstance cfg c (pin cfg c s).2).2.stats.misses =
        (pin cfg c s).2.stats.misses) := by
  constructor
  · simp [pin, hd]
  · simp [pin, hd, getInstance, findVal]

theorem pin_then_get_pinned_hit_witness :
    ((pin cfgUnit [0] sampleMemState).2.stats.hitsPinned =
        sampleMemState.stats.hitsPinned ∧
     (pin cfgUnit [0] sampleMemState).2.stats.hitsMemory =
        sampleMemState.stats.hitsMemory ∧
     (pin cfgUnit [0] sampleMemState).2.stats.hitsFs =
        sampleMemState.stats.hitsFs + 1 ∧
     (pin cfgUnit [0] sampleMemState).2.stats.misses =
        sampleMemState.stats.misses) ∧
    ((getInstance cfgUnit [0] (pin cfgUnit [0] sampleMemState).2).2.stats.hitsPinned =
        (pin cfgUnit [0] sampleMemState).2.stats.hitsPinned + 1 ∧
     (getInstance cfgUnit [0] (pin cfgUnit [0] sampleMemState).2).2.stats.hitsMemory =
        (pin cfgUnit [0] sampleMemState).2.stats.hitsMemory ∧
     (getInstance cfgUnit [0] (pin cfgUnit [0] sampleMemState).2).2.stats.hitsFs =
        (pin cfgUnit [0] sampleMemState).2.stats.hitsFs ∧
     (getInstance cfgUnit [0] (pin cfgUnit [0] sampleMemState).2).2.stats.misses =
        (pin cfgUnit [0] sampleMemState).2.stats.misses) :=
  pin_then_get_pinned_hit cfgUnit [0] [0] sampleMemState (by decide)

/-- C7: `unpin` removes from the Pinned Tier only — the Memory Tier, the
Durable Store and the counters are untouched and other pinned entries
survive — and for a checksum whose module is resident in the Memory Tier,
`unpin` followed by `get_instance` yields a memory-tier hit, not a
pinned-tier hit. -/
theorem unpin_frame (cfg : CacheConfig) (c : Bytes) (m : Module)
    (s : CacheState) :
    (unpin c s).2.memory = s.memory ∧
    (unpin c s).2.durable = s.durable ∧
    (unpin c s).2.stats = s.stats ∧
    findVal c (unpin c s).2.pinned = none ∧
    (∀ c2, c2 ≠ c → findVal c2 (unpin c s).2.pinned = findVal c2 s.pinned) ∧
    (findVal c s.memory = some m →
      (getInstance cfg c (unpin c s).2).2.stats.hitsMemory =
        s.stats.hitsMemory + 1 ∧
      (getInstance cfg c (unpin c s).2).2.stats.hitsPinned = s.stats.hitsPinned ∧
      (getInstance cfg c (unpin c s).2).2.stats.hitsFs = s.stats.hitsFs ∧
      (getInstance cfg c (unpin c s).2).2.stats.misses = s.stats.misses) := by
  refine ⟨rfl, rfl, rfl, findVal_removeKey_self c s.pinned,
    fun c2 h => findVal_removeKey_ne h s.pinned, fun hm => ?_⟩
  simp [getInstance, unpin, findVal_removeKey_self, hm]

theorem unpin_frame_witness :
    (getInstance cfgUnit [0] (unpin [0] sampleMemState).2).2.stats.hitsMemory =
      sampleMemState.stats.hitsMemory + 1 ∧
    (getInstance cfgUnit [0] (unpin [0] sampleMemState).2).2.stats.hitsPinned =
      sampleMemState.stats.hitsPinned :=
  have h := (unpin_frame cfgUnit [0] ⟨[0], 1⟩ sampleMemState).2.2.2.2.2 (by decide)
  ⟨h.1, h.2.1⟩

/-- C6: with a 200 MiB budget, after accessing module A (150 MiB) then
module B (100 MiB), a further access to A evicts B from the Memory Tier, so
the next access to B is a durable-store hit and not a memory hit; and a
module resident in the Pinned Tier survives every `get_instance` (hence any
Memory Tier pressure) untouched. -/
theorem eviction_scenario_pinned_immune :
    (findVal [1] (runState cfgEvict
        [.save [0], .save [1], .get [0], .get [1], .get [0]]).memory = none ∧
     (getInstance cfgEvict [1] (runState cfgEvict
        [.save [0], .save [1], .get [0], .get [1], .get [0]])).2.stats.hitsFs =
       (runState cfgEvict
        [.save [0], .save [1], .get [0], .get [1], .get [0]]).stats.hitsFs + 1 ∧
     (getInstance cfgEvict [1] (runState cfgEvict
        [.save [0], .save [1], .get [0], .get [1], .get [0]])).2.stats.hitsMemory =
       (runState cfgEvict
        [.save [0], .save [1], .get [0], .get [1], .get [0]]).stats.hitsMemory) ∧
    ∀ (cfg : CacheConfig) (c2 c : Bytes) (m : Module) (s : CacheState),
      findVal c s.pinned = some m →
      findVal c ((getInstance cfg c2 s).2).pinned = some m := by
  constructor
  · refine ⟨by decide, by decide, by decide⟩
  · intro cfg c2 c m s h
    cases hp : findVal c2 s.pinned with
    | some m2 => simp [getInstance, hp, h]
    | none =>
      cases hm : findVal c2 s.memory with
      | some m2 => simp [getInstance, hp, hm, h]
      | none =>
        cases hd : findVal c2 s.durable with
        | none => simp [getInstance, hp, hm, hd, h]
        | some b => simp [getInstance, hp, hm, hd, h]

theorem eviction_scenario_pinned_immune_witness :
    findVal [0] ((getInstance cfgEvict [1] samplePinState).2).pinned =
      some ⟨[0], 1⟩ :=
  eviction_scenario_pinned_immune.2 cfgEvict [1] [0] ⟨[0], 1⟩ samplePinState
    (by decide)

theorem saveWasm_stats (cfg : CacheConfig) (b : Bytes) (s : CacheState) :
    ((saveWasm cfg b s).2).stats = s.stats := by
  cases hv : cfg.validateOk b with
  | false => simp [saveWasm, hv]
  | true => cases hd : findVal (checksum b) s.durable <;> simp [saveWasm, hv, hd]

theorem getInstance_statsSum (cfg : CacheConfig) (c : Bytes) (s : CacheState) :
    statsSum ((getInstance cfg c s).2).stats = statsSum s.stats + 1 := by
  cases hp : findVal c s.pinned with
  | some m => simp [getInstance, hp, statsSum]; omega
  | none =>
    cases hm : findVal c s.memory with
    | some m => simp [getInstance, hp, hm, statsSum]; omega
    | none =>
      cases hd : findVal c s.durable with
      | none => simp [getInstance, hp, hm, hd, statsSum]; omega
      | some b => simp [getInstance, hp, hm, hd, statsSum]; omega

theorem pin_statsSum (cfg : CacheConfig) (c : Bytes) (s : CacheState) :
    statsSum ((pin cfg c s).2).stats =
      statsSum s.stats + (if (findVal c s.durable).isSome then 1 else 0) := by
  cases hd : findVal c s.durable with
  | none => simp [pin, hd]
  | some b => simp [pin, hd, statsSum]; omega

theorem runCount_statsSum_aux (cfg : CacheConfig) (ops : List Op) :
    ∀ acc : CacheState × Nat × Nat,
      statsSum acc.1.stats = acc.2.1 + acc.2.2 →
      statsSum (ops.foldl (stepCount cfg) acc).1.stats =
        (ops.foldl (stepCount cfg) acc).2.1 +
          (ops.foldl (stepCount cfg) acc).2.2 := by
  induction ops with
  | nil => intro acc h; simpa using h
  | cons op rest ih =>
    intro acc h
    rw [List.foldl_cons]
    apply ih
    cases op with
    | save b => simpa [stepCount, saveWasm_stats] using h
    | get c =>
      simp only [stepCount, getInstance_statsSum]
      omega
    | pinOp c =>
      simp only [stepCount, pin_statsSum]
      by_cases hd : (findVal c acc.1.durable).isSome = true <;> simp [hd] <;> omega
    | unpinOp c => simpa [stepCount, unpin] using h

/-- C1: every `get_instance` call increments exactly one of the four
counters by exactly one leaving the other three unchanged, and after any
sequence of `save_wasm`, `get_instance`, `pin` and `unpin` calls on a fresh
Orchestrator the sum of the four counters equals the number of
`get_instance` calls issued plus the number of successful `pin` calls. -/
theorem get_instance_exact_accounting (cfg : CacheConfig) :
    (∀ (c : Bytes) (s : CacheState),
      ((getInstance cfg c s).2.stats.hitsPinned = s.stats.hitsPinned + 1 ∧
       (getInstance cfg c s).2.stats.hitsMemory = s.stats.hitsMemory ∧
       (getInstance cfg c s).2.stats.hitsFs = s.stats.hitsFs ∧
       (getInstance cfg c s).2.stats.misses = s.stats.misses) ∨
      ((getInstance cfg c s).2.stats.hitsPinned = s.stats.hitsPinned ∧
       (getInstance cfg c s).2.stats.hitsMemory = s.stats.hitsMemory + 1 ∧
       (getInstance cfg c s).2.stats.hitsFs = s.stats.hitsFs ∧
       (getInstance cfg c s).2.stats.misses = s.stats.misses) ∨
      ((getInstance cfg c s).2.stats.hitsPinned = s.stats.hitsPinned ∧
       (getInstance cfg c s).2.stats.hitsMemory = s.stats.hitsMemory ∧
       (getInstance cfg c s).2.stats.hitsFs = s.stats.hitsFs + 1 ∧
       (getInstance cfg c s).2.stats.misses = s.stats.misses) ∨
      ((getInstance cfg c s).2.stats.hitsPinned = s.stats.hitsPinned ∧
       (getInstance cfg c s).2.stats.hitsMemory = s.stats.hitsMemory ∧
       (getInstance cfg c s).2.stats.hitsFs = s.stats.hitsFs ∧
       (getInstance cfg c s).2.stats.misses = s.stats.misses + 1)) ∧
    ∀ ops : List Op,
      statsSum (runCount cfg ops).1.stats =
        (runCount cfg ops).2.1 + (runCount cfg ops).2.2 := by
  constructor
  · intro c s
    cases hp : findVal c s.pinned with
    | some m => exact Or.inl (by simp [getInstance, hp])
    | none =>
      cases hm : findVal c s.memory with
      | some m => exact Or.inr (Or.inl (by simp [getInstance, hp, hm]))
      | none =>
        cases hd : findVal c s.durable with
        | none =>
          exact Or.inr (Or.inr (Or.inr (by simp [getInstance, hp, hm, hd])))
        | some b =>
          exact Or.inr (Or.inr (Or.inl (by simp [getInstance, hp, hm, hd])))
  · intro ops
    exact runCount_statsSum_aux cfg ops (initState, 0, 0) rfl

theorem findVal_isSome_iff_any {α : Type} (c : Bytes) (l : List (Bytes × α)) :
    (findVal c l).isSome = l.any (fun e => decide (e.1 = c)) := by
  induction l with
  | nil => rfl
  | cons e rest ih => by_cases h : e.1 = c <;> simp [findVal, h, ih]

theorem evictLru_any (budget : Nat) (p : Bytes × Module → Bool) :
    ∀ l : List (Bytes × Module),
      (evictLru budget l).any p = true → l.any p = true := by
  intro l
  induction l with
  | nil => simp [evictLru]
  | cons e rest ih =>
    simp only [evictLru]
    by_cases h : memTotal (e :: rest) ≤ budget
    · simp [h]
    · intro hx
      rw [if_neg h] at hx
      simp [List.any_cons, ih hx]

theorem any_of_filter_any {α : Type} (q p : α → Bool) (l : List α) :
    (l.filter q).any p = true → l.any p = true := by
  induction l with
  | nil => simp
  | cons e rest ih =>
    rw [List.filter_cons]
    by_cases h : q e
    · rw [if_pos h]
      simp only [List.any_cons]
      intro hx
      rcases Bool.or_eq_true_iff.mp hx with h1 | h1
      · simp [h1]
      · simp [ih h1]
    · rw [if_neg h]
      intro hx
      simp [List.any_cons, ih hx]

theorem memInsert_findVal_isSome (cfg : CacheConfig) (c : Bytes) (m : Module)
    (l : List (Bytes × Module)) (c2 : Bytes)
    (h : (findVal c2 (memInsert cfg c m l)).isSome = true) :
    c2 = c ∨ (findVal c2 l).isSome = true := by
  rw [findVal_isSome_iff_any] at h
  unfold memInsert evict at h
  rw [List.any_reverse] at h
  have h2 := evictLru_any cfg.memBudget _ _ h
  rw [List.any_reverse] at h2
  simp only [List.any_cons] at h2
  rcases Bool.or_eq_true_iff.mp h2 with h3 | h3
  · left
    exact (of_decide_eq_true h3).symm
  · right
    rw [findVal_isSome_iff_any]
    exact any_of_filter_any _ _ l h3

theorem getInstance_durable (cfg : CacheConfig) (c : Bytes) (s : CacheState) :
    ((getInstance cfg c s).2).durable = s.durable := by
  cases hp : findVal c s.pinned with
  | some m => simp [getInstance, hp]
  | none =>
    cases hm : findVal c s.memory with
    | some m => simp [getInstance, hp, hm]
    | none =>
      cases hd : findVal c s.durable with
      | none => simp [getInstance, hp, hm, hd]
      | some b => simp [getInstance, hp, hm, hd]

theorem getInstance_pinned (cfg : CacheConfig) (c : Bytes) (s : CacheState) :
    ((getInstance cfg c s).2).pinned = s.pinned := by
  cases hp : findVal c s.pinned with
  | some m => simp [getInstance, hp]
  | none =>
    cases hm : findVal c s.memory with
    | some m => simp [getInstance, hp, hm]
    | none =>
      cases hd : findVal c s.durable with
      | none => simp [getInstance, hp, hm, hd]
      | some b => simp [getInstance, hp, hm, hd]

theorem pin_durable (cfg : CacheConfig) (c : Bytes) (s : CacheState) :
    ((pin cfg c s).2).durable = s.durable := by
  cases hd : findVal c s.durable <;> simp [pin, hd]

theorem pin_memory (cfg : CacheConfig) (c : Bytes) (s : CacheState) :
    ((pin cfg c s).2).memory = s.memory := by
  cases hd : findVal c s.durable <;> simp [pin, hd]

theorem saveWasm_memory (cfg : CacheConfig) (b : Bytes) (s : CacheState) :
    ((saveWasm cfg b s).2).memory = s.memory := by
  cases hv : cfg.validateOk b with
  | false => simp [saveWasm, hv]
  | true => cases hd : findVal (checksum b) s.durable <;> simp [saveWasm, hv, hd]

theorem saveWasm_pinned (cfg : CacheConfig) (b : Bytes) (s : CacheState) :
    ((saveWasm cfg b s).2).pinned = s.pinned := by
  cases hv : cfg.validateOk b with
  | false => simp [saveWasm, hv]
  | true => cases hd : findVal (checksum b) s.durable <;> simp [saveWasm, hv, hd]

theorem saveWasm_durable_mono (cfg : CacheConfig) (b : Bytes) (s : CacheState)
    (c : Bytes) (h : (findVal c s.durable).isSome = true) :
    (findVal c ((saveWasm cfg b s).2).durable).isSome = true := by
  cases hv : cfg.validateOk b with
  | false => simpa [saveWasm, hv] using h
  | true =>
    cases hd : findVal (checksum b) s.durable with
    | some v => simpa [saveWasm, hv, hd] using h
    | none =>
      by_cases he : checksum b = c
      · subst he
        simp [saveWasm, hv, hd, findVal]
      · simp [saveWasm, hv, hd, findVal, he, h]

theorem saveWasm_durable_none (cfg : CacheConfig) (b : Bytes) (s : CacheState)
    (c : Bytes) (h : findVal c s.durable = none)
    (hs : (cfg.validateOk b && decide (checksum b = c)) = false) :
    findVal c ((saveWasm cfg b s).2).durable = none := by
  cases hv : cfg.validateOk b with
  | false => simpa [saveWasm, hv] using h
  | true =>
    have he : ¬ (checksum b = c) := by
      rw [hv] at hs
      simpa using hs
    cases hd : findVal (checksum b) s.durable with
    | some v => simpa [saveWasm, hv, hd] using h
    | none => simp [saveWasm, hv, hd, findVal, he, h]

theorem run_durable_none (cfg : CacheConfig) (c : Bytes) (ops : List Op) :
    ∀ acc : CacheState × Nat × Nat,
      findVal c acc.1.durable = none →
      savedSuccessfully cfg ops c = false →
      findVal c (ops.foldl (stepCount cfg) acc).1.durable = none := by
  induction ops with
  | nil => intro acc h _; simpa using h
  | cons op rest ih =>
    intro acc h hs
    rw [List.foldl_cons]
    simp only [savedSuccessfully, List.any_cons, Bool.or_eq_false_iff] at hs
    apply ih _ _ (by simpa [savedSuccessfully] using hs.2)
    cases op with
    | save b =>
      have hf : (cfg.validateOk b && decide (checksum b = c)) = false := by
        simpa using hs.1
      simpa [stepCount] using saveWasm_durable_none cfg b acc.1 c h hf
    | get c2 => simpa [stepCount, getInstance_durable] using h
    | pinOp c2 => simpa [stepCount, pin_durable] using h
    | unpinOp c2 => simpa [stepCount, unpin] using h

theorem removeKey_isSome {α : Type} (c c2 : Bytes) (l : List (Bytes × α))
    (h : (findVal c2 (removeKey c l)).isSome = true) :
    (findVal c2 l).isSome = true := by
  by_cases he : c2 = c
  · subst he
    rw [findVal_removeKey_self] at h
    simp at h
  · rwa [findVal_removeKey_ne he] at h

theorem getInstance_memory_isSome (cfg : CacheConfig) (c : Bytes)
    (s : CacheState) (c2 : Bytes)
    (h : (findVal c2 ((getInstance cfg c s).2).memory).isSome = true) :
    (findVal c2 s.memory).isSome = true ∨
      (c2 = c ∧ (findVal c s.durable).isSome = true) := by
  cases hp : findVal c s.pinned with
  | some m => left; simpa [getInstance, hp] using h
  | none =>
    cases hm : findVal c s.memory with
    | some m =>
      by_cases he : c = c2
      · left; subst he; simp [hm]
      · left
        have hrw := @findVal_removeKey_ne _ c c2 (fun hx => he hx.symm) s.memory
        simpa [getInstance, hp, hm, findVal, he, hrw] using h
    | none =>
      cases hd : findVal c s.durable with
      | none => left; simpa [getInstance, hp, hm, hd] using h
      | some b =>
        have h2 : (findVal c2
            (memInsert cfg c (compile cfg b) s.memory)).isSome = true := by
          simpa [getInstance, hp, hm, hd] using h
        rcases memInsert_findVal_isSome cfg c _ s.memory c2 h2 with he | hold
        · right; exact ⟨he, by simp [hd]⟩
        · left; exact hold

theorem pin_pinned_isSome (cfg : CacheConfig) (c : Bytes) (s : CacheState)
    (c2 : Bytes) (h : (findVal c2 ((pin cfg c s).2).pinned).isSome = true) :
    (findVal c2 s.pinned).isSome = true ∨
      (c2 = c ∧ (findVal c s.durable).isSome = true) := by
  cases hd : findVal c s.durable with
  | none => left; simpa [pin, hd] using h
  | some b =>
    by_cases he : c = c2
    · right; exact ⟨he.symm, by simp [hd]⟩
    · left
      have hrw := @findVal_removeKey_ne _ c c2 (fun hx => he hx.symm) s.pinned
      simpa [pin, hd, findVal, he, hrw] using h

theorem run_tiers_in_durable (cfg : CacheConfig) (ops : List Op) :
    ∀ acc : CacheState × Nat × Nat,
      (∀ c2, (findVal c2 acc.1.memory).isSome = true →
          (findVal c2 acc.1.durable).isSome = true) →
      (∀ c2, (findVal c2 acc.1.pinned).isSome = true →
          (findVal c2 acc.1.durable).isSome = true) →
      ((∀ c2, (findVal c2 (ops.foldl (stepCount cfg) acc).1.memory).isSome = true →
          (findVal c2 (ops.foldl (stepCount cfg) acc).1.durable).isSome = true) ∧
       (∀ c2, (findVal c2 (ops.foldl (stepCount cfg) acc).1.pinned).isSome = true →
          (findVal c2 (ops.foldl (stepCount cfg) acc).1.durable).isSome = true)) := by
  induction ops with
  | nil => intro acc hm hp; exact ⟨hm, hp⟩
  | cons op rest ih =>
    intro acc hm hp
    rw [List.foldl_cons]
    apply ih
    · intro c2 hx
      cases op with
      | save b =>
        simp only [stepCount, saveWasm_memory] at hx
        exact saveWasm_durable_mono cfg b acc.1 c2 (hm c2 hx)
      | get c =>
        simp only [stepCount] at hx ⊢
        rw [getInstance_durable]
        rcases getInstance_memory_isSome cfg c acc.1 c2 hx with hold | ⟨he, hdur⟩
        · exact hm c2 hold
        · subst he; exact hdur
      | pinOp c =>
        simp only [stepCount, pin_memory] at hx
        simp only [stepCount, pin_durable]
        exact hm c2 hx
      | unpinOp c =>
        simp only [stepCount, unpin] at hx ⊢
        exact hm c2 hx
    · intro c2 hx
      cases op with
      | save b =>
        simp only [stepCount, saveWasm_pinned] at hx
        exact saveWasm_durable_mono cfg b acc.1 c2 (hp c2 hx)
      | get c =>
        simp only [stepCount, getInstance_pinned] at hx
        simp only [stepCount]
        rw [getInstance_durable]
        exact hp c2 hx
      | pinOp c =>
        simp only [stepCount] at hx ⊢
        rw [pin_durable]
        rcases pin_pinned_isSome cfg c acc.1 c2 hx with hold | ⟨he, hdur⟩
        · exact hp c2 hold
        · subst he; exact hdur
      | unpinOp c =>
        simp only [stepCount, unpin] at hx ⊢
        exact hp c2 (removeKey_isSome c c2 acc.1.pinned hx)

/-- C4: for a checksum never passed to a successful `save_wasm` during any
call sequence on a fresh Orchestrator, `get_instance` returns NotFoundError
and increments the miss counter by exactly one, leaving the pinned-hit,
memory-hit and durable-store-hit counters unchanged. -/
theorem unknown_checksum_miss (cfg : CacheConfig) (ops : List Op) (c : Bytes)
    (h : savedSuccessfully cfg ops c = false) :
    (getInstance cfg c (runState cfg ops)).1 = .error .notFound ∧
    (getInstance cfg c (runState cfg ops)).2.stats.misses =
      (runState cfg ops).stats.misses + 1 ∧
    (getInstance cfg c (runState cfg ops)).2.stats.hitsPinned =
      (runState cfg ops).stats.hitsPinned ∧
    (getInstance cfg c (runState cfg ops)).2.stats.hitsMemory =
      (runState cfg ops).stats.hitsMemory ∧
    (getInstance cfg c (runState cfg ops)).2.stats.hitsFs =
      (runState cfg ops).stats.hitsFs := by
  have hd : findVal c (runState cfg ops).durable = none :=
    run_durable_none cfg c ops (initState, 0, 0) rfl h
  have hts := run_tiers_in_durable cfg ops (initState, 0, 0)
    (by intro c2 hx; simp [initState, findVal] at hx)
    (by intro c2 hx; simp [initState, findVal] at hx)
  have hmem : findVal c (runState cfg ops).memory = none := by
    apply Option.not_isSome_iff_eq_none.mp
    intro hx
    have h2 := hts.1 c hx
    rw [show (ops.foldl (stepCount cfg) (initState, 0, 0)).1 = runState cfg ops
      from rfl, hd] at h2
    simp at h2
  have hpin : findVal c (runState cfg ops).pinned = none := by
    apply Option.not_isSome_iff_eq_none.mp
    intro hx
    have h2 := hts.2 c hx
    rw [show (ops.foldl (stepCount cfg) (initState, 0, 0)).1 = runState cfg ops
      from rfl, hd] at h2
    simp at h2
  simp [getInstance, hpin, hmem, hd]

theorem unknown_checksum_miss_witness :
    savedSuccessfully cfgUnit [.save [1], .get [1]] [2] = false ∧
    ((getInstance cfgUnit [2] (runState cfgUnit [.save [1], .get [1]])).1 =
        .error .notFound ∧
     (getInstance cfgUnit [2] (runState cfgUnit [.save [1], .get [1]])).2.stats.misses =
        (runState cfgUnit [.save [1], .get [1]]).stats.misses + 1 ∧
     (getInstance cfgUnit [2] (runState cfgUnit [.save [1], .get [1]])).2.stats.hitsPinned =
        (runState cfgUnit [.save [1], .get [1]]).stats.hitsPinned ∧
     (getInstance cfgUnit [2] (runState cfgUnit [.save [1], .get [1]])).2.stats.hitsMemory =
        (runState cfgUnit [.save [1], .get [1]]).stats.hitsMemory ∧
     (getInstance cfgUnit [2] (runState cfgUnit [.save [1], .get [1]])).2.stats.hitsFs =
        (runState cfgUnit [.save [1], .get [1]]).stats.hitsFs) :=
  ⟨by decide, unknown_checksum_miss cfgUnit [.save [1], .get [1]] [2] (by decide)⟩

end CacheCore

/-! ## Lemmas and theorems: Coins -/

namespace CoinsModel

theorem lexLt_irrefl : ∀ a : List Char, lexLt a a = false := by
  intro a
  induction a with
  | nil => rfl
  | cons c t ih => simp [lexLt, Nat.lt_irrefl, ih]

theorem mapGet_some_mem (d : Denom) (v : Nat) (m : CoinsMap)
    (h : mapGet d m = some v) : (d, v) ∈ m := by
  induction m with
  | nil => simp [mapGet] at h
  | cons e rest ih =>
    obtain ⟨k, w⟩ := e
    by_cases he : k = d
    · subst he
      simp [mapGet] at h
      subst h
      exact List.mem_cons_self _ _
    · simp [mapGet, he] at h
      exact List.mem_cons_of_mem _ (ih h)

theorem mapInsert_mem (d : Denom) (v : Nat) (m : CoinsMap) (e : Denom × Nat)
    (h : e ∈ (mapInsert d v m).1) : e = (d, v) ∨ e ∈ m := by
  induction m with
  | nil => simpa [mapInsert] using h
  | cons f rest ih =>
    by_cases h1 : lexLt d f.1 = true
    · simp [mapInsert, h1] at h
      rcases h with h | h | h
      · exact Or.inl h
      · exact Or.inr (by simp [h])
      · exact Or.inr (List.mem_cons_of_mem _ h)
    · by_cases h2 : d = f.1
      · subst h2
        simp [mapInsert, lexLt_irrefl] at h
        rcases h with h | h
        · exact Or.inl h
        · exact Or.inr (List.mem_cons_of_mem _ h)
      · simp [mapInsert, h1, h2] at h
        rcases h with h | h
        · exact Or.inr (by simp [h])
        · rcases ih h with h3 | h3
          · exact Or.inl h3
          · exact Or.inr (List.mem_cons_of_mem _ h3)

theorem mapInsert_mapInsert (d : Denom) (v1 v2 : Nat) (m : CoinsMap) :
    (mapInsert d v2 (mapInsert d v1 m).1).1 = (mapInsert d v2 m).1 := by
  induction m with
  | nil => simp [mapInsert, lexLt_irrefl]
  | cons f rest ih =>
    by_cases h1 : lexLt d f.1 = true
    · simp [mapInsert, h1, lexLt_irrefl]
    · by_cases h2 : d = f.1
      · simp [mapInsert, h1, h2, lexLt_irrefl]
      · simp [mapInsert, h1, h2, ih]

theorem addCoin_good (m : CoinsMap) (c : Coin) (hm : goodAmounts m)
    (hc : c.amount < TWO128) : goodAmounts (addCoin m c).2 := by
  by_cases h0 : c.amount = 0
  · simpa [addCoin, h0] using hm
  · cases hg : mapGet c.denom m with
    | none =>
      have hcond : 0 + c.amount < TWO128 := by simpa using hc
      intro e he
      simp only [addCoin, h0, hg, if_neg h0, Option.getD_none, hcond, if_pos,
        ite_false] at he
      rw [mapInsert_mapInsert] at he
      rcases mapInsert_mem _ _ _ _ he with h | h
      · subst h
        exact ⟨by omega, by simpa using hc⟩
      · exact hm e h
    | some v =>
      have hv := hm _ (mapGet_some_mem _ _ _ hg)
      by_cases hof : v + c.amount < TWO128
      · intro e he
        simp only [addCoin, h0, hg, if_neg h0, Option.getD_some, hof, if_pos,
          ite_false] at he
        rw [mapInsert_mapInsert] at he
        rcases mapInsert_mem _ _ _ _ he with h | h
        · subst h
          exact ⟨by omega, by simpa using hof⟩
        · exact hm e h
      · intro e he
        simp only [addCoin, h0, hg, if_neg h0, Option.getD_some, hof,
          ite_false, if_neg] at he
        rcases mapInsert_mem _ _ _ _ he with h | h
        · subst h
          exact ⟨hv.1, hv.2⟩
        · exact hm e h

theorem tryFromAux_good : ∀ (l : List Coin) (acc m : CoinsMap),
    goodAmounts acc → (∀ c ∈ l, c.amount < TWO128) →
    tryFromAux acc l = .ok m → goodAmounts m := by
  intro l
  induction l with
  | nil =>
    intro acc m hacc _ h
    simp [tryFromAux] at h
    subst h
    exact hacc
  | cons c t ih =>
    intro acc m hacc hb h
    by_cases h0 : c.amount = 0
    · exact ih acc m hacc (fun c2 h2 => hb c2 (List.mem_cons_of_mem _ h2))
        (by simpa [tryFromAux, h0] using h)
    · cases hr : (mapInsert c.denom c.amount acc).2 with
      | some v => simp [tryFromAux, h0, hr] at h
      | none =>
        refine ih (mapInsert c.denom c.amount acc).1 m ?_
          (fun c2 h2 => hb c2 (List.mem_cons_of_mem _ h2))
          (by simpa [tryFromAux, h0, hr] using h)
        intro e he
        rcases mapInsert_mem _ _ _ _ he with h3 | h3
        · subst h3
          exact ⟨Nat.pos_of_ne_zero h0, hb c (List.mem_cons_self _ _)⟩
        · exact hacc e h3

theorem extendCoins_good : ∀ (l : List Coin) (m : CoinsMap),
    goodAmounts m → (∀ c ∈ l, c.amount < TWO128) →
    goodAmounts (extendCoins m l).2 := by
  intro l
  induction l with
  | nil => intro m hm _; simpa [extendCoins] using hm
  | cons c t ih =>
    intro m hm hb
    have hg := addCoin_good m c hm (hb c (List.mem_cons_self _ _))
    cases hr : (addCoin m c).1 with
    | error e => simpa [extendCoins, hr] using hg
    | ok u =>
      simpa [extendCoins, hr] using
        ih (addCoin m c).2 hg (fun c2 h2 => hb c2 (List.mem_cons_of_mem _ h2))

theorem coinFromChars_bound (s : List Char) (c : Coin)
    (h : coinFromChars s = .ok c) : c.amount < TWO128 := by
  by_cases h1 : s.takeWhile isDigitChar = []
  · simp [coinFromChars, h1] at h
  · by_cases h2 : s.dropWhile isDigitChar = []
    · simp [coinFromChars, h1, h2] at h
    · by_cases h3 : charsToNat (s.takeWhile isDigitChar) < TWO128
      · simp [coinFromChars, h1, h2, h3] at h
        rw [← h]
        exact h3
      · simp [coinFromChars, h1, h2, h3] at h

theorem parseCoinList_bound : ∀ (ss : List (List Char)) (coins : List Coin),
    parseCoinList ss = .ok coins → ∀ c ∈ coins, c.amount < TWO128 := by
  intro ss
  induction ss with
  | nil =>
    intro coins h
    simp [parseCoinList] at h
    subst h
    simp
  | cons s t ih =>
    intro coins h
    cases hc : coinFromChars s with
    | error e => simp [parseCoinList, hc] at h
    | ok c =>
      cases hp : parseCoinList t with
      | error e => simp [parseCoinList, hc, hp] at h
      | ok cs =>
        have : c :: cs = coins := by simpa [parseCoinList, hc, hp] using h
        subst this
        intro c2 h2
        rcases List.mem_cons.mp h2 with h3 | h3
        · subst h3
          exact coinFromChars_bound s c2 hc
        · exact ih cs hp c2 h3

theorem coinsFromChars_good (s : List Char) (m : CoinsMap)
    (h : coinsFromChars s = .ok m) : goodAmounts m := by
  by_cases hs : s = []
  · simp [coinsFromChars, hs] at h
    subst h
    simp [goodAmounts]
  · cases hp : parseCoinList (splitComma s) with
    | error e => simp [coinsFromChars, hs, hp] at h
    | ok coins =>
      cases ht : tryFromVec coins with
      | error e => simp [coinsFromChars, hs, hp, ht] at h
      | ok m2 =>
        have hm : m2 = m := by simpa [coinsFromChars, hs, hp, ht] using h
        subst hm
        exact tryFromAux_good coins [] m2 (by simp [goodAmounts])
          (parseCoinList_bound _ _ hp) ht

theorem Reach_good (m : CoinsMap) (h : Reach m) : goodAmounts m := by
  induction h with
  | empty => simp [goodAmounts]
  | ofTryFrom l m2 hb ht =>
    exact tryFromAux_good l [] m2 (by simp [goodAmounts]) hb ht
  | ofFromCoin c hc => exact addCoin_good [] c (by simp [goodAmounts]) hc
  | ofFromStr s m2 h2 => exact coinsFromChars_good s m2 h2
  | ofAdd m2 c _ hc ih => exact addCoin_good m2 c ih hc
  | ofExtend m2 l _ hb ih => exact extendCoins_good l m2 ih hb

/-- C9: every `Coins` value reachable through the public constructors and
mutators maps each stored denom to a strictly positive `Uint128` amount,
`amount_of` returns zero exactly for absent denoms, and both `add` and
`TryFrom<Vec<Coin>>` silently skip zero-amount coins (`add` returning `Ok`
and leaving the collection unchanged). -/
theorem coins_never_store_zero :
    (∀ m : CoinsMap, Reach m →
      (∀ e ∈ m, 0 < e.2 ∧ e.2 < TWO128) ∧
      ∀ d : Denom, (amountOf d m = 0 ↔ mapGet d m = none)) ∧
    (∀ (m : CoinsMap) (d : Denom), addCoin m ⟨d, 0⟩ = (.ok (), m)) ∧
    (∀ (acc : CoinsMap) (d : Denom) (l : List Coin),
      tryFromAux acc (⟨d, 0⟩ :: l) = tryFromAux acc l) := by
  refine ⟨fun m hr => ?_, fun m d => by simp [addCoin], fun acc d l => by
    simp [tryFromAux]⟩
  have hg := Reach_good m hr
  refine ⟨hg, fun d => ?_⟩
  cases hgt : mapGet d m with
  | none => simp [amountOf, hgt]
  | some v =>
    have hv := (hg _ (mapGet_some_mem d v m hgt)).1
    simp only [amountOf, hgt, Option.getD_some]
    exact iff_of_false (by omega) (by simp)

theorem coins_never_store_zero_witness :
    (∀ e ∈ fromCoin ⟨['u'], 5⟩, 0 < e.2 ∧ e.2 < TWO128) ∧
    addCoin [] ⟨['u'], 0⟩ = (.ok (), []) :=
  ⟨(coins_never_store_zero.1 (fromCoin ⟨['u'], 5⟩)
      (Reach.ofFromCoin ⟨['u'], 5⟩ (by decide))).1,
    coins_never_store_zero.2.1 [] ['u']⟩

end CoinsModel

namespace CoinsModel

theorem charsToNat_digits_rev : ∀ ds : List Nat, (∀ d ∈ ds, d < 10) →
    charsToNat ((ds.reverse).map fun d => Char.ofNat (48 + d)) =
      Nat.ofDigits 10 ds := by
  intro ds
  induction ds with
  | nil => intro _; rfl
  | cons d t ih =>
    intro hds
    have hd : d < 10 := hds d (List.mem_cons_self _ _)
    have htn : (Char.ofNat (48 + d)).toNat = 48 + d := by
      interval_cases d <;> decide
    simp only [List.reverse_cons, List.map_append, List.map_cons, List.map_nil]
    simp only [charsToNat, List.foldl_append, List.foldl_cons, List.foldl_nil]
    have ihx := ih (fun x hx => hds x (List.mem_cons_of_mem _ hx))
    simp only [charsToNat] at ihx
    rw [ihx, htn, Nat.ofDigits_cons]
    omega

theorem charsToNat_natToChars (n : Nat) : charsToNat (natToChars n) = n := by
  by_cases h : n = 0
  · subst h; rfl
  · unfold natToChars
    rw [if_neg h]
    rw [charsToNat_digits_rev (Nat.digits 10 n)
      (fun d hd => Nat.digits_lt_base (by norm_num) hd)]
    exact Nat.ofDigits_digits 10 n

theorem natToChars_ne_nil (n : Nat) : natToChars n ≠ [] := by
  by_cases h : n = 0
  · subst h; decide
  · simp [natToChars, h]
    exact Nat.digits_ne_nil_iff_ne_zero.mpr h

theorem natToChars_digits (n : Nat) :
    ∀ ch ∈ natToChars n, isDigitChar ch = true := by
  by_cases h : n = 0
  · subst h
    intro ch hch
    simp [natToChars] at hch
    subst hch
    decide
  · intro ch hch
    simp [natToChars, h] at hch
    obtain ⟨d, hd, hchr⟩ := hch
    have hlt : d < 10 := Nat.digits_lt_base (by norm_num) hd
    subst hchr
    interval_cases d <;> decide

theorem digitChar_ne_comma (ch : Char) (h : isDigitChar ch = true) :
    ch ≠ ',' := by
  intro he
  subst he
  exact absurd h (by decide)

theorem takeWhile_dropWhile_append (p : Char → Bool) : ∀ (xs ys : List Char),
    (∀ a ∈ xs, p a = true) → (∀ a, ys.head? = some a → p a = false) →
    (xs ++ ys).takeWhile p = xs ∧ (xs ++ ys).dropWhile p = ys := by
  intro xs
  induction xs with
  | nil =>
    intro ys _ hy
    cases ys with
    | nil => exact ⟨rfl, rfl⟩
    | cons y t =>
      have hpy := hy y rfl
      simp [List.takeWhile_cons, List.dropWhile_cons, hpy]
  | cons x t ih =>
    intro ys hx hy
    have hpx : p x = true := hx x (List.mem_cons_self _ _)
    have iht := ih ys (fun a ha => hx a (List.mem_cons_of_mem _ ha)) hy
    simp [List.takeWhile_cons, List.dropWhile_cons, hpx, iht.1, iht.2]

theorem coinFromChars_coinToChars (e : Denom × Nat) (hd : roundtripDenom e.1)
    (hb : e.2 < TWO128) : coinFromChars (coinToChars e) = .ok ⟨e.1, e.2⟩ := by
  obtain ⟨hne, _, hhead⟩ := hd
  have hy : ∀ a, e.1.head? = some a → isDigitChar a = false := by
    intro a ha
    apply hhead
    cases h1 : e.1 with
    | nil => rw [h1] at ha; simp at ha
    | cons c u =>
      rw [h1] at ha
      simp at ha
      subst ha
      simp
  have happ := takeWhile_dropWhile_append isDigitChar (natToChars e.2) e.1
    (natToChars_digits e.2) hy
  simp only [coinFromChars, coinToChars, happ.1, happ.2, charsToNat_natToChars]
  rw [if_neg (natToChars_ne_nil e.2), if_neg hne, if_pos hb]

theorem parseCoinList_render : ∀ m : CoinsMap,
    (∀ e ∈ m, roundtripDenom e.1 ∧ e.2 < TWO128) →
    parseCoinList (m.map coinToChars) = .ok (m.map fun e => ⟨e.1, e.2⟩) := by
  intro m
  induction m with
  | nil => intro _; rfl
  | cons e t ih =>
    intro h
    have he := h e (List.mem_cons_self _ _)
    have iht := ih (fun x hx => h x (List.mem_cons_of_mem _ hx))
    simp only [List.map_cons, parseCoinList,
      coinFromChars_coinToChars e he.1 he.2, iht]

theorem splitComma_no_comma : ∀ x : List Char,
    (∀ ch ∈ x, ch ≠ ',') → splitComma x = [x] := by
  intro x
  induction x with
  | nil => intro _; rfl
  | cons c t ih =>
    intro h
    have hc : c ≠ ',' := h c (List.mem_cons_self _ _)
    have iht := ih (fun ch hch => h ch (List.mem_cons_of_mem _ hch))
    simp [splitComma, hc, iht]

theorem splitComma_append : ∀ (x r : List Char), (∀ ch ∈ x, ch ≠ ',') →
    splitComma (x ++ ',' :: r) = x :: splitComma r := by
  intro x
  induction x with
  | nil => intro r _; simp [splitComma]
  | cons c t ih =>
    intro r h
    have hc : c ≠ ',' := h c (List.mem_cons_self _ _)
    have iht := ih r (fun ch hch => h ch (List.mem_cons_of_mem _ hch))
    simp [splitComma, hc, iht]

theorem splitComma_intercalate : ∀ pieces : List (List Char),
    (∀ x ∈ pieces, ∀ ch ∈ x, ch ≠ ',') → pieces ≠ [] →
    splitComma (intercalateComma pieces) = pieces := by
  intro pieces
  induction pieces with
  | nil => intro _ h; exact absurd rfl h
  | cons x rest ih =>
    intro h _
    cases rest with
    | nil => exact splitComma_no_comma x (h x (List.mem_cons_self _ _))
    | cons y t =>
      rw [show intercalateComma (x :: y :: t) =
        x ++ ',' :: intercalateComma (y :: t) from rfl]
      rw [splitComma_append x _ (h x (List.mem_cons_self _ _))]
      rw [ih (fun z hz => h z (List.mem_cons_of_mem _ hz)) (by simp)]

theorem intercalateComma_ne_nil (x : List Char) (rest : List (List Char))
    (hx : x ≠ []) : intercalateComma (x :: rest) ≠ [] := by
  cases rest with
  | nil => simpa [intercalateComma] using hx
  | cons y t => simp [intercalateComma]

theorem lexLt_asymm : ∀ a b : List Char,
    lexLt a b = true → lexLt b a = false := by
  intro a
  induction a with
  | nil =>
    intro b h
    cases b with
    | nil => simp [lexLt] at h
    | cons c t => rfl
  | cons c t ih =>
    intro b h
    cases b with
    | nil => simp [lexLt] at h
    | cons d u =>
      simp only [lexLt] at h ⊢
      by_cases h1 : c.toNat < d.toNat
      · have h2 : ¬ d.toNat < c.toNat := Nat.lt_asymm h1
        simp [h1, h2]
      · by_cases h2 : d.toNat < c.toNat
        · simp [h1, h2] at h
        · simp [h1, h2] at h ⊢
          exact ih u h

theorem mapInsert_append_big : ∀ (acc : CoinsMap) (d : Denom) (v : Nat),
    (∀ e ∈ acc, lexLt e.1 d = true) →
    mapInsert d v acc = (acc ++ [(d, v)], none) := by
  intro acc
  induction acc with
  | nil => intro d v _; rfl
  | cons f rest ih =>
    intro d v h
    have hf : lexLt f.1 d = true := h f (List.mem_cons_self _ _)
    have h1 : lexLt d f.1 = false := lexLt_asymm _ _ hf
    have h2 : d ≠ f.1 := by
      intro he
      rw [he] at hf
      exact absurd hf (by simp [lexLt_irrefl])
    simp [mapInsert, h1, h2, ih d v (fun e he => h e (List.mem_cons_of_mem _ he))]

theorem tryFromAux_sorted : ∀ (m acc : CoinsMap),
    (∀ e ∈ acc, ∀ f ∈ m, lexLt e.1 f.1 = true) →
    sortedMap m → (∀ e ∈ m, e.2 ≠ 0) →
    tryFromAux acc (m.map fun e => ⟨e.1, e.2⟩) = .ok (acc ++ m) := by
  intro m
  induction m with
  | nil => intro acc _ _ _; simp [tryFromAux]
  | cons e t ih =>
    intro acc hcross hs hnz
    have hnz0 : e.2 ≠ 0 := hnz e (List.mem_cons_self _ _)
    have hins := mapInsert_append_big acc e.1 e.2
      (fun f hf => hcross f hf e (List.mem_cons_self _ _))
    have hpair := List.pairwise_cons.mp hs
    have hrec := ih (acc ++ [(e.1, e.2)]) ?_ hpair.2
      (fun g hg => hnz g (List.mem_cons_of_mem _ hg))
    · simp only [List.map_cons, tryFromAux, hnz0, if_neg, ite_false, hins]
      rw [hrec]
      simp
    · intro f hf g hg
      rcases List.mem_append.mp hf with h3 | h3
      · exact hcross f h3 g (List.mem_cons_of_mem _ hg)
      · have : f = (e.1, e.2) := by simpa using h3
        subst this
        exact hpair.1 g hg

/-- C8: `Coins` string round-trip. For every well-formed `Coins` value
(strictly sorted by denom with positive `Uint128` amounts, as the public
interface maintains) whose denoms are non-empty, comma-free and do not begin
with a decimal digit, `from_str` of `to_string` returns the value; `Display`
renders the entries in sorted denom order joined by commas, the empty
collection renders as the empty string, and `from_str` of the empty string
is the empty collection. -/
theorem coins_roundtrip (m : CoinsMap) (hs : sortedMap m)
    (hg : goodAmounts m) (hd : ∀ e ∈ m, roundtripDenom e.1) :
    coinsFromChars (coinsToChars m) = .ok m ∧
    coinsToChars [] = [] ∧
    coinsFromChars [] = .ok [] ∧
    List.Pairwise (fun a b => lexLt a b = true) (m.map fun e => e.1) := by
  refine ⟨?_, rfl, rfl, List.Pairwise.map _ (fun a b h => h) hs⟩
  cases m with
  | nil => rfl
  | cons e t =>
    have hx : coinToChars e ≠ [] := by
      simp [coinToChars, natToChars_ne_nil e.2]
    have hsplit : splitComma (intercalateComma ((e :: t).map coinToChars)) =
        (e :: t).map coinToChars := by
      apply splitComma_intercalate
      · intro x hx2 ch hch
        obtain ⟨f, hf, hfx⟩ := List.mem_map.mp hx2
        subst hfx
        rcases List.mem_append.mp hch with h1 | h1
        · exact digitChar_ne_comma ch (natToChars_digits f.2 ch h1)
        · exact (hd f hf).2.1 ch h1
      · simp
    have hne2 : coinsToChars (e :: t) ≠ [] := by
      unfold coinsToChars
      exact intercalateComma_ne_nil _ _ hx
    have hparse : parseCoinList ((e :: t).map coinToChars) =
        .ok ((e :: t).map fun f => ⟨f.1, f.2⟩) :=
      parseCoinList_render _ (fun f hf => ⟨hd f hf, (hg f hf).2⟩)
    have htry : tryFromVec ((e :: t).map fun f => ⟨f.1, f.2⟩) =
        .ok (e :: t) := by
      have h2 := tryFromAux_sorted (e :: t) [] (by simp) hs
        (fun f hf => Nat.pos_iff_ne_zero.mp (hg f hf).1)
      simpa [tryFromVec] using h2
    unfold coinsFromChars
    rw [if_neg hne2]
    unfold coinsToChars
    rw [hsplit, hparse]
    simp only [List.map_cons] at htry
    simp [htry]

theorem coins_roundtrip_witness :
    sortedMap [(['a'], 2), (['b'], 3)] ∧
    (coinsFromChars (coinsToChars [(['a'], 2), (['b'], 3)]) =
        .ok [(['a'], 2), (['b'], 3)] ∧
     coinsToChars [] = [] ∧
     coinsFromChars [] = .ok [] ∧
     List.Pairwise (fun a b => lexLt a b = true)
       ([(['a'], 2), (['b'], 3)].map fun e => e.1)) :=
  ⟨by simp only [sortedMap]; decide,
    coins_roundtrip [(['a'], 2), (['b'], 3)] (by simp only [sortedMap]; decide)
      (by simp only [goodAmounts, TWO128]; decide)
      (by simp only [roundtripDenom]; decide)⟩

end CoinsModel

/-! ## Lemmas and theorems: staking-state storage -/

namespace StakingState

theorem bytesToNat_digits_rev : ∀ ds : List Nat,
    bytesToNat ((ds.reverse).map fun d => 48 + d) = Nat.ofDigits 10 ds := by
  intro ds
  induction ds with
  | nil => rfl
  | cons d t ih =>
    simp only [List.reverse_cons, List.map_append, List.map_cons, List.map_nil]
    simp only [bytesToNat, List.foldl_append, List.foldl_cons, List.foldl_nil]
    simp only [bytesToNat] at ih
    rw [ih, Nat.ofDigits_cons]
    omega

theorem fromSliceU128_toVecU128 (v : Nat) (hv : v < CoinsModel.TWO128) :
    fromSliceU128 (toVecU128 v) = .ok v := by
  have hmid : ∀ b ∈ (if v = 0 then [48]
      else (Nat.digits 10 v).reverse.map (fun d => 48 + d)), isDigitByte b = true := by
    by_cases h : v = 0
    · simp [h, isDigitByte]
    · intro b hb
      simp [h] at hb
      obtain ⟨d, hd, hbd⟩ := hb
      have : d < 10 := Nat.digits_lt_base (by norm_num) hd
      subst hbd
      simp [isDigitByte]
      omega
  have hne : (if v = 0 then [48]
      else (Nat.digits 10 v).reverse.map (fun d => 48 + d)) ≠ [] := by
    by_cases h : v = 0
    · simp [h]
    · simp [h]
      exact Nat.digits_ne_nil_iff_ne_zero.mpr h
  have hval : bytesToNat (if v = 0 then [48]
      else (Nat.digits 10 v).reverse.map (fun d => 48 + d)) = v := by
    by_cases h : v = 0
    · subst h; rfl
    · rw [if_neg h, bytesToNat_digits_rev]
      exact Nat.ofDigits_digits 10 v
  simp only [toVecU128, List.cons_append, fromSliceU128, List.getLast?_concat,
    List.dropLast_concat]
  simp only [if_true]
  rw [if_pos ⟨hne, by simpa [List.all_eq_true] using hmid, by rw [hval]; exact hv⟩]
  rw [hval]

theorem storeGet_storeSet_self (st : Store) (k v : ByteStr) :
    storeGet k (storeSet st k v) = some v := by
  simp [storeGet, storeSet]

theorem storeGet_storeSet_ne (st : Store) (k k2 v : ByteStr) (h : k2 ≠ k) :
    storeGet k2 (storeSet st k v) = storeGet k2 st := by
  have hk : ¬ (k = k2) := fun hx => h hx.symm
  simp only [storeSet, storeGet, if_neg hk]
  induction st with
  | nil => rfl
  | cons e rest ih =>
    simp only [ne_eq, decide_not] at ih ⊢
    by_cases he : e.1 = k
    · simp [List.filter_cons, he, storeGet, hk, ih]
    · by_cases he2 : e.1 = k2
      · simp [List.filter_cons, he, storeGet, he2, h]
      · simp [List.filter_cons, he, storeGet, he2, ih]

theorem namespaceWithKey_inj (ns1 k1 ns2 k2 : ByteStr)
    (h1 : ns1.length < 65536) (h2 : ns2.length < 65536)
    (he : namespaceWithKey ns1 k1 = namespaceWithKey ns2 k2) :
    ns1 = ns2 ∧ k1 = k2 := by
  unfold namespaceWithKey encodeLength at he
  rw [List.append_assoc, List.append_assoc] at he
  obtain ⟨hh, ht⟩ := List.append_inj he rfl
  have hlen : ns1.length = ns2.length := by
    simp only [List.cons.injEq, and_true] at hh
    omega
  exact List.append_inj ht hlen

theorem runSaves_get_none_aux (ns key : ByteStr) (hns : ns.length < 65536) :
    ∀ (saves : List (ByteStr × ByteStr × Nat)) (st : Store),
      (∀ e ∈ saves, e.1.length < 65536) →
      (∀ e ∈ saves, ¬ (e.1 = ns ∧ e.2.1 = key)) →
      storeGet (namespaceWithKey ns key) st = none →
      storeGet (namespaceWithKey ns key)
        (saves.foldl (fun st2 e => saveMap st2 e.1 e.2.1 e.2.2) st) = none := by
  intro saves
  induction saves with
  | nil => intro st _ _ h; simpa using h
  | cons e rest ih =>
    intro st hall hne h
    rw [List.foldl_cons]
    refine ih _ (fun e2 h2 => hall e2 (List.mem_cons_of_mem _ h2))
      (fun e2 h2 => hne e2 (List.mem_cons_of_mem _ h2)) ?_
    have hkey : namespaceWithKey ns key ≠ namespaceWithKey e.1 e.2.1 := by
      intro hx
      obtain ⟨hq, hk⟩ := namespaceWithKey_inj ns key e.1 e.2.1 hns
        (hall e (List.mem_cons_self _ _)) hx
      exact hne e (List.mem_cons_self _ _) ⟨hq.symm, hk.symm⟩
    unfold saveMap
    rw [storeGet_storeSet_ne st _ _ _ hkey]
    exact h

/-- C10: after `save_map` the same `(prefix, key)` pair reads back through
`may_load_map` as `Ok(Some(value))` and through `load_map` as `Ok(value)`;
and on a storage populated only by `save_map` calls for other
`(prefix, key)` pairs (namespace components within the `0xFFFF` length
bound), `may_load_map` returns `Ok(None)` while `load_map` returns a
not-found `StdError`. -/
theorem staking_map_roundtrip :
    (∀ (st : Store) (ns key : ByteStr) (v : Nat), v < CoinsModel.TWO128 →
      mayLoadMap (saveMap st ns key v) ns key = .ok (some v) ∧
      loadMap (saveMap st ns key v) ns key = .ok v) ∧
    (∀ (saves : List (ByteStr × ByteStr × Nat)) (ns key : ByteStr),
      ns.length < 65536 →
      (∀ e ∈ saves, e.1.length < 65536) →
      (∀ e ∈ saves, ¬ (e.1 = ns ∧ e.2.1 = key)) →
      mayLoadMap (runSaves saves) ns key = .ok none ∧
      loadMap (runSaves saves) ns key = .error .notFound) := by
  constructor
  · intro st ns key v hv
    have h1 : storeGet (namespaceWithKey ns key) (saveMap st ns key v) =
        some (toVecU128 v) := storeGet_storeSet_self st _ _
    have h2 := fromSliceU128_toVecU128 v hv
    constructor
    · simp [mayLoadMap, h1, h2]
    · simp [loadMap, mayLoadMap, h1, h2]
  · intro saves ns key hns hall hne
    have h : storeGet (namespaceWithKey ns key) (runSaves saves) = none :=
      runSaves_get_none_aux ns key hns saves [] hall hne rfl
    constructor
    · simp [mayLoadMap, h]
    · simp [loadMap, mayLoadMap, h]

theorem staking_map_roundtrip_witness :
    (7 < CoinsModel.TWO128 ∧
     mayLoadMap (saveMap [] [1] [2] 7) [1] [2] = .ok (some 7) ∧
     loadMap (saveMap [] [1] [2] 7) [1] [2] = .ok 7) ∧
    (mayLoadMap (runSaves [([1], [3], 5)]) [1] [2] = .ok none ∧
     loadMap (runSaves [([1], [3], 5)]) [1] [2] = .error .notFound) :=
  ⟨⟨by decide,
    staking_map_roundtrip.1 [] [1] [2] 7 (by decide)⟩,
   staking_map_roundtrip.2 [([1], [3], 5)] [1] [2] (by decide)
     (by decide) (by decide)⟩

end StakingState
